import Mathlib

/-!
Verification development for the `configurator` package (`pkg/configurator/methods.go`)
of the osm repository.  The Go code is shallowly embedded: strings are handled as
`String` / `List Char`, the Go standard library functions used by the code
(`strings.ReplaceAll`, `strings.Split`, `strings.Trim`, `strings.Join`, `sort.Strings`,
`net.ParseCIDR`) are given faithful executable Lean models, and the accessor methods of
`Client` are translated directly.  The compiled-in default constants live in the
`constants` package, which the spec treats as externally supplied; the accessors
therefore take them as explicit parameters.
-/

namespace OSM

/-! ### Go standard-library string helpers, on `List Char` -/

/-- Model of `strings.ReplaceAll(s, " ", ",")` specialised to single characters:
every space character is replaced by a comma. -/
def replSpace (c : Char) : Char := if c = ' ' then ',' else c

/-- Helper for `splitOnChar`: returns the first token and the remaining tokens. -/
def splitCh (sep : Char) : List Char → List Char × List (List Char)
  | [] => ([], [])
  | c :: cs =>
    let p := splitCh sep cs
    if c = sep then ([], p.1 :: p.2) else (c :: p.1, p.2)

/-- Model of `strings.Split(s, sep)` for a single-character separator:
`splitOnChar sep s` is the list of maximal `sep`-free segments of `s`
(`strings.Split("", sep) = [""]`, and consecutive separators yield empty tokens,
exactly as in Go). -/
def splitOnChar (sep : Char) (s : List Char) : List (List Char) :=
  (splitCh sep s).1 :: (splitCh sep s).2

/-- Model of `strings.Trim(s, " ")`: removes leading and trailing *space* characters
(only `' '`, not other whitespace — that is Go's behaviour for the cutset `" "`). -/
def goTrim (s : List Char) : List Char :=
  (((s.dropWhile (· = ' ')).reverse).dropWhile (· = ' ')).reverse

/-- Model of `strings.Join(elems, ",")` on the underlying character lists. -/
def joinComma : List (List Char) → List Char
  | [] => []
  | [s] => s
  | s :: rest => s ++ ',' :: joinComma rest

/-! ### Model of `net.ParseCIDR` (Go standard library `net/ip.go`)

Only success/failure of the parse matters to `GetMeshCIDRRanges`, but the parsing
functions are translated in full so that the validity predicate is the real one.
The IPv4 leading-zero rejection follows the current standard library. -/

/-- The constant `big = 0xFFFFFF` from Go's `net` package `dtoi`/`xtoi`. -/
def big : Nat := 0xFFFFFF

/-- Loop of Go's `dtoi`: decimal prefix value, characters consumed, success flag. -/
def dtoiGo : List Char → Nat → Nat → Nat × Nat × Bool
  | [], n, i => if i = 0 then (0, 0, false) else (n, i, true)
  | c :: cs, n, i =>
    if '0' ≤ c ∧ c ≤ '9' then
      let n' := n * 10 + (c.toNat - '0'.toNat)
      if big ≤ n' then (big, i, false)
      else dtoiGo cs n' (i + 1)
    else
      if i = 0 then (0, 0, false) else (n, i, true)

/-- Model of Go `net.dtoi(s)`: parse the maximal decimal-digit prefix. -/
def dtoi (s : List Char) : Nat × Nat × Bool := dtoiGo s 0 0

/-- Hexadecimal value of a character, as accepted by Go `net.xtoi`. -/
def hexVal (c : Char) : Option Nat :=
  if '0' ≤ c ∧ c ≤ '9' then some (c.toNat - '0'.toNat)
  else if 'a' ≤ c ∧ c ≤ 'f' then some (c.toNat - 'a'.toNat + 10)
  else if 'A' ≤ c ∧ c ≤ 'F' then some (c.toNat - 'A'.toNat + 10)
  else none

/-- Loop of Go's `xtoi`: hexadecimal prefix value, characters consumed, success flag. -/
def xtoiGo : List Char → Nat → Nat → Nat × Nat × Bool
  | [], n, i => if i = 0 then (0, i, false) else (n, i, true)
  | c :: cs, n, i =>
    match hexVal c with
    | none => if i = 0 then (0, i, false) else (n, i, true)
    | some v =>
      let n' := n * 16 + v
      if big ≤ n' then (0, i, false)
      else xtoiGo cs n' (i + 1)

/-- Model of Go `net.xtoi(s)`. -/
def xtoi (s : List Char) : Nat × Nat × Bool := xtoiGo s 0 0

/-- One dotted-decimal field of Go `net.parseIPv4`: value and rest of the input.
Rejects values above `0xFF` and non-zero fields with leading zeroes. -/
def parseIPv4Field (s : List Char) : Option (Nat × List Char) :=
  if s = [] then none
  else
    let r := dtoi s
    if r.2.2 = false then none
    else if 0xFF < r.1 then none
    else if 1 < r.2.1 ∧ s.head? = some '0' then none
    else some (r.1, s.drop r.2.1)

/-- Fields 2..4 of Go `net.parseIPv4`: each preceded by a dot; the input must be
exhausted at the end. -/
def parseIPv4Rest : Nat → List Char → List Nat → Option (List Nat)
  | 0, s, acc => if s = [] then some acc.reverse else none
  | k + 1, s, acc =>
    match s with
    | '.' :: s1 =>
      match parseIPv4Field s1 with
      | none => none
      | some (n, s2) => parseIPv4Rest k s2 (n :: acc)
    | _ => none

/-- Model of Go `net.parseIPv4(s)`: four dot-separated decimal bytes. -/
def parseIPv4 (s : List Char) : Option (List Nat) :=
  match parseIPv4Field s with
  | none => none
  | some (n, s1) => parseIPv4Rest 3 s1 [n]

/-- Final step of Go `net.parseIPv6`: expand the ellipsis (`::`) into the missing
zero groups, or fail when the group count is wrong. `i` is the number of bytes
parsed, `acc` those bytes in order, `ell` the byte position of the ellipsis. -/
def finishIPv6 (i : Nat) (acc : List Nat) (ell : Option Nat) : Option (List Nat) :=
  if i < 16 then
    match ell with
    | none => none
    | some e => some (acc.take e ++ List.replicate (16 - i) 0 ++ acc.drop e)
  else
    match ell with
    | some _ => none
    | none => some acc

/-- Main loop of Go `net.parseIPv6`, fuel-indexed (each iteration consumes at least
two of the sixteen bytes, so fuel 9 suffices).  Entered only with `i < 16`. -/
def parseIPv6Aux : Nat → List Char → Nat → List Nat → Option Nat → Option (List Nat)
  | 0, _, _, _, _ => none
  | fuel + 1, s, i, acc, ell =>
    let r := xtoi s
    if r.2.2 = false ∨ 0xFFFF < r.1 then none
    else if r.2.1 < s.length ∧ s.get? r.2.1 = some '.' then
      if ell = none ∧ i ≠ 12 then none
      else if 16 < i + 4 then none
      else
        match parseIPv4 s with
        | none => none
        | some ip4 => finishIPv6 (i + 4) (acc ++ ip4) ell
    else
      let acc' := acc ++ [r.1 / 256, r.1 % 256]
      let i' := i + 2
      match s.drop r.2.1 with
      | [] => finishIPv6 i' acc' ell
      | ':' :: s2 =>
        if s2 = [] then none
        else
          match s2 with
          | ':' :: s3 =>
            if ell ≠ none then none
            else if s3 = [] then finishIPv6 i' acc' (some i')
            else if i' < 16 then parseIPv6Aux fuel s3 i' acc' (some i')
            else none
          | _ =>
            if i' < 16 then parseIPv6Aux fuel s2 i' acc' ell
            else none
      | _ => none

/-- Model of Go `net.parseIPv6(s)`. -/
def parseIPv6 (s : List Char) : Option (List Nat) :=
  match s with
  | ':' :: ':' :: rest =>
    if rest = [] then some (List.replicate 16 0)
    else parseIPv6Aux 9 rest 0 [] (some 0)
  | _ => parseIPv6Aux 9 s 0 [] none

/-- Index of the last `'%'` in the input, if any (Go `byteLastIndex(s, '%')`). -/
def lastPercentIdx : List Char → Option Nat
  | [] => none
  | c :: cs =>
    match lastPercentIdx cs with
    | some j => some (j + 1)
    | none => if c = '%' then some 0 else none

/-- Host part of Go `net.splitHostZone(s)`: everything before the last `'%'`,
provided that `'%'` is not the first character. -/
def splitHostZone (s : List Char) : List Char :=
  match lastPercentIdx s with
  | some i => if 0 < i then s.take i else s
  | none => s

/-- IP part of Go `net.parseIPv6Zone(s)`. -/
def parseIPv6Zone (s : List Char) : Option (List Nat) :=
  parseIPv6 (splitHostZone s)

/-- Split at the first `'/'` (Go `byteIndex(s, '/')` followed by slicing):
returns the address part and the mask part. -/
def splitFirstSlash : List Char → Option (List Char × List Char)
  | [] => none
  | c :: cs =>
    if c = '/' then some ([], cs)
    else
      match splitFirstSlash cs with
      | none => none
      | some (a, m) => some (c :: a, m)

/-- Model of Go `net.ParseCIDR(s)` reduced to its success condition: the input
splits at the first slash into an address that parses as IPv4 (address-family
length 4) or IPv6 (length 16) and a mask that is entirely decimal digits whose
value is at most 8 times the address-family length. -/
def parseCIDR (s : List Char) : Bool :=
  match splitFirstSlash s with
  | none => false
  | some (addr, mask) =>
    let ipv4 := parseIPv4 addr
    let iplen := if ipv4.isSome then 4 else 16
    let ipOk := if ipv4.isSome then true else (parseIPv6Zone addr).isSome
    let r := dtoi mask
    if ipOk = false ∨ r.2.2 = false ∨ r.2.1 ≠ mask.length ∨ 8 * iplen < r.1 then false
    else true

/-! ### Data model: the `osmConfig` snapshot and the `Client`

`osmConfig` mirrors the fields the accessors in `methods.go` read from
`c.getConfigMap()`.  All of them are plain Go values (strings, ints, bools);
in particular the "optional" string fields are plain `string`s whose zero value
is the empty string, and the port is a plain `int` (converted with `uint32(...)`
on the way out). -/

structure osmConfig where
  permissiveTrafficPolicyMode : Bool
  egress : Bool
  prometheusScraping : Bool
  tracingEnable : Bool
  tracingAddress : String
  tracingPort : Int
  tracingEndpoint : String
  meshCIDRRanges : String
  useHTTPSIngress : Bool
  envoyLogLevel : String
deriving DecidableEq

/-- The configurator `Client`, restricted to the state the accessor methods read:
the controller namespace fixed at construction time and the current config snapshot. -/
structure Client where
  osmNamespace : String
  configMap : osmConfig
deriving DecidableEq

/-- Model of `c.getConfigMap()`: returns the current snapshot. -/
def Client.getConfigMap (c : Client) : osmConfig := c.configMap

/-- `GetOSMNamespace` returns the namespace in which the OSM controller pod resides. -/
def Client.GetOSMNamespace (c : Client) : String := c.osmNamespace

/-! ### Accessors with default substitution

The compiled-in defaults (`constants.DefaultTracingHost` etc.) are outside this
package and treated by the spec as externally supplied, so they are passed as
explicit parameters. -/

/-- `GetTracingHost`: the stored tracing address when non-empty, otherwise
`fmt.Sprintf("%s.%s.svc.cluster.local", constants.DefaultTracingHost, c.GetOSMNamespace())`. -/
def Client.GetTracingHost (defaultTracingHost : String) (c : Client) : String :=
  let tracingAddress := c.getConfigMap.tracingAddress
  if tracingAddress ≠ "" then tracingAddress
  else defaultTracingHost ++ "." ++ c.GetOSMNamespace ++ ".svc.cluster.local"

/-- `GetTracingPort`: the stored port converted with `uint32(...)` when non-zero,
otherwise `constants.DefaultTracingPort`.  The `uint32` conversion of a Go `int`
reduces it modulo `2^32` (two's complement wrap-around). -/
def Client.GetTracingPort (defaultTracingPort : Nat) (c : Client) : Nat :=
  let tracingPort := c.getConfigMap.tracingPort
  if tracingPort ≠ 0 then (tracingPort % (2 ^ 32 : Int)).toNat
  else defaultTracingPort

/-- `GetTracingEndpoint`: the stored endpoint when non-empty, otherwise
`constants.DefaultTracingEndpoint`. -/
def Client.GetTracingEndpoint (defaultTracingEndpoint : String) (c : Client) : String :=
  let tracingEndpoint := c.getConfigMap.tracingEndpoint
  if tracingEndpoint ≠ "" then tracingEndpoint
  else defaultTracingEndpoint

/-- `GetEnvoyLogLevel`: the stored level when non-empty, otherwise
`constants.DefaultEnvoyLogLevel`. -/
def Client.GetEnvoyLogLevel (defaultEnvoyLogLevel : String) (c : Client) : String :=
  let logLevel := c.getConfigMap.envoyLogLevel
  if logLevel ≠ "" then logLevel
  else defaultEnvoyLogLevel

/-! ### `GetMeshCIDRRanges` -/

/-- Lexicographic (bytewise, as in Go's `<=` on `string`; under UTF-8 the bytewise
order coincides with the code-point order used here) non-strict comparison of
character lists. -/
def goStringLeB : List Char → List Char → Bool
  | [], _ => true
  | _ :: _, [] => false
  | c :: cs, d :: ds =>
    if c.toNat < d.toNat then true
    else if d.toNat < c.toNat then false
    else goStringLeB cs ds

/-- The string order used by `sort.Strings`: lexicographic comparison of the
underlying character sequences. -/
def strLe (s t : String) : Prop := goStringLeB s.data t.data = true

instance : DecidableRel strLe := fun _ _ => Bool.decEq _ _

theorem goStringLeB_total : ∀ a b, goStringLeB a b = true ∨ goStringLeB b a = true
  | [], _ => Or.inl rfl
  | _ :: _, [] => Or.inr rfl
  | c :: cs, d :: ds => by
    rcases Nat.lt_trichotomy c.toNat d.toNat with h | h | h
    · exact Or.inl (by simp [goStringLeB, h])
    · have ih := goStringLeB_total cs ds
      have h1 : ¬ c.toNat < d.toNat := by omega
      have h2 : ¬ d.toNat < c.toNat := by omega
      simpa [goStringLeB, h1, h2] using ih
    · exact Or.inr (by simp [goStringLeB, h])

theorem goStringLeB_trans :
    ∀ a b c, goStringLeB a b = true → goStringLeB b c = true → goStringLeB a c = true
  | [], _, _, _, _ => rfl
  | _ :: _, [], _, hab, _ => by simp [goStringLeB] at hab
  | _ :: _, _ :: _, [], _, hbc => by simp [goStringLeB] at hbc
  | x :: xs, y :: ys, z :: zs, hab, hbc => by
    by_cases hxy : x.toNat < y.toNat <;> by_cases hyz : y.toNat < z.toNat
    · simp [goStringLeB, show x.toNat < z.toNat by omega]
    · by_cases hzy : z.toNat < y.toNat
      · simp [goStringLeB, hyz, hzy] at hbc
      · simp [goStringLeB, show x.toNat < z.toNat by omega]
    · by_cases hyx : y.toNat < x.toNat
      · simp [goStringLeB, hxy, hyx] at hab
      · simp [goStringLeB, show x.toNat < z.toNat by omega]
    · by_cases hyx : y.toNat < x.toNat
      · simp [goStringLeB, hxy, hyx] at hab
      · by_cases hzy : z.toNat < y.toNat
        · simp [goStringLeB, hyz, hzy] at hbc
        · have hxz1 : ¬ x.toNat < z.toNat := by omega
          have hxz2 : ¬ z.toNat < x.toNat := by omega
          simp [goStringLeB, hxy, hyx] at hab
          simp [goStringLeB, hyz, hzy] at hbc
          simpa [goStringLeB, hxz1, hxz2] using goStringLeB_trans xs ys zs hab hbc

instance : IsTotal String strLe where
  total s t := goStringLeB_total s.data t.data

instance : IsTrans String strLe where
  trans s t u := goStringLeB_trans s.data t.data u.data

/-- The per-token body of the loop in `GetMeshCIDRRanges`: trim spaces, skip empty
tokens, skip tokens rejected by `net.ParseCIDR`, keep the rest (the kept token is
what enters `cidrSet`). -/
def keepToken (cidr : List Char) : Option (List Char) :=
  let trimmedCIDR := goTrim cidr
  if trimmedCIDR.length = 0 then none
  else if parseCIDR trimmedCIDR then some trimmedCIDR
  else none

/-- The raw comma-separated token list of `GetMeshCIDRRanges`:
`strings.Split(strings.ReplaceAll(raw, " ", ","), ",")`. -/
def rawTokens (raw : String) : List (List Char) :=
  splitOnChar ',' (raw.data.map replSpace)

/-- The pure normalization performed by `GetMeshCIDRRanges` on the raw
`mesh_cidr_ranges` string: split on commas after turning spaces into commas,
trim/validate/skip per token, deduplicate via the `cidrSet` map, and sort the
surviving strings (`sort.Strings`; on a duplicate-free list every correct sort
yields the same result, so insertion sort is used here). -/
def normalizeCIDRs (raw : String) : List String :=
  List.insertionSort strLe (((rawTokens raw).filterMap keepToken).map String.mk).dedup

/-- `GetMeshCIDRRanges` returns the normalized list of mesh CIDR ranges read from
the current snapshot's `mesh_cidr_ranges` field. -/
def Client.GetMeshCIDRRanges (c : Client) : List String :=
  normalizeCIDRs c.getConfigMap.meshCIDRRanges

/-- A zero-value snapshot (what decoding a payload with all keys absent — or
explicitly empty strings and zeros — produces); used to instantiate theorems. -/
def baseConfig : osmConfig :=
  { permissiveTrafficPolicyMode := false
    egress := false
    prometheusScraping := false
    tracingEnable := false
    tracingAddress := ""
    tracingPort := 0
    tracingEndpoint := ""
    meshCIDRRanges := ""
    useHTTPSIngress := false
    envoyLogLevel := "" }

/-- A client in namespace `"osm-system"` holding the zero-value snapshot. -/
def baseClient : Client :=
  { osmNamespace := "osm-system", configMap := baseConfig }

/-- A client whose snapshot carries the given raw mesh-CIDR string (the other
fields are irrelevant to `GetMeshCIDRRanges`); used only to instantiate theorems. -/
def clientWithCIDRs (raw : String) : Client :=
  { osmNamespace := "osm-system", configMap := { baseConfig with meshCIDRRanges := raw } }

/-! ### Lemmas about the tokenizer -/

theorem splitCh_sep_not_mem (sep : Char) :
    ∀ s : List Char, sep ∉ (splitCh sep s).1 ∧ ∀ t ∈ (splitCh sep s).2, sep ∉ t := by
  intro s
  induction s with
  | nil => simp [splitCh]
  | cons c cs ih =>
    by_cases h : c = sep
    · simpa [splitCh, h] using ⟨ih.1, ih.2⟩
    · refine ⟨?_, ?_⟩
      · simp only [splitCh, if_neg h]
        intro hmem
        rcases List.mem_cons.mp hmem with h1 | h1
        · exact h h1.symm
        · exact ih.1 h1
      · simpa [splitCh, if_neg h] using ih.2

theorem mem_splitOnChar_not_sep {sep : Char} {s : List Char} {t : List Char}
    (ht : t ∈ splitOnChar sep s) : sep ∉ t := by
  rcases List.mem_cons.mp ht with h | h
  · exact h ▸ (splitCh_sep_not_mem sep s).1
  · exact (splitCh_sep_not_mem sep s).2 t h

theorem splitCh_chars_sub (sep : Char) :
    ∀ s : List Char, (∀ c ∈ (splitCh sep s).1, c ∈ s) ∧
      ∀ t ∈ (splitCh sep s).2, ∀ c ∈ t, c ∈ s := by
  intro s
  induction s with
  | nil => simp [splitCh]
  | cons a as ih =>
    by_cases h : a = sep
    · refine ⟨?_, ?_⟩
      · simp [splitCh, h]
      · simp only [splitCh, if_pos h]
        intro t ht c hc
        rcases List.mem_cons.mp ht with h1 | h1
        · exact List.mem_cons_of_mem a (ih.1 c (h1 ▸ hc))
        · exact List.mem_cons_of_mem a (ih.2 t h1 c hc)
    · refine ⟨?_, ?_⟩
      · simp only [splitCh, if_neg h]
        intro c hc
        rcases List.mem_cons.mp hc with h1 | h1
        · exact h1 ▸ List.mem_cons_self a as
        · exact List.mem_cons_of_mem a (ih.1 c h1)
      · simp only [splitCh, if_neg h]
        intro t ht c hc
        exact List.mem_cons_of_mem a (ih.2 t ht c hc)

theorem mem_splitOnChar_chars_sub {sep : Char} {s t : List Char}
    (ht : t ∈ splitOnChar sep s) : ∀ c ∈ t, c ∈ s := by
  rcases List.mem_cons.mp ht with h | h
  · exact fun c hc => (splitCh_chars_sub sep s).1 c (h ▸ hc)
  · exact fun c hc => (splitCh_chars_sub sep s).2 t h c hc

theorem splitCh_append_no_sep {sep : Char} {a : List Char} (ha : sep ∉ a) (s : List Char) :
    splitCh sep (a ++ s) = (a ++ (splitCh sep s).1, (splitCh sep s).2) := by
  induction a with
  | nil => simp
  | cons c cs ih =>
    have hc : ¬ c = sep := fun h => ha (h ▸ List.mem_cons_self c cs)
    have hcs : sep ∉ cs := fun h => ha (List.mem_cons_of_mem c h)
    simp [splitCh, hc, ih hcs]

theorem splitCh_no_sep {sep : Char} {a : List Char} (ha : sep ∉ a) :
    splitCh sep a = (a, []) := by
  simpa [splitCh] using splitCh_append_no_sep ha []

theorem splitOnChar_append_sep (sep : Char) (s : List Char) :
    splitOnChar sep (sep :: s) = [] :: splitOnChar sep s := by
  simp [splitOnChar, splitCh]

theorem splitOnChar_joinComma :
    ∀ pieces : List (List Char), pieces ≠ [] → (∀ p ∈ pieces, ',' ∉ p) →
      splitOnChar ',' (joinComma pieces) = pieces
  | [], h, _ => absurd rfl h
  | [p], _, hp => by
    have : (',' : Char) ∉ p := hp p (List.mem_singleton_self p)
    simp [joinComma, splitOnChar, splitCh_no_sep this]
  | p :: q :: rest, _, hp => by
    have h1 : (',' : Char) ∉ p := hp p (List.mem_cons_self _ _)
    have ih := splitOnChar_joinComma (q :: rest) (by simp)
      (fun r hr => hp r (List.mem_cons_of_mem p hr))
    simp only [joinComma]
    simp only [splitOnChar, splitCh_append_no_sep h1, splitCh] at *
    simp_all

/-! ### Lemmas about `goTrim` -/

theorem dropWhile_eq_self_of_head {p : Char → Bool} :
    ∀ {s : List Char}, (∀ c ∈ s, ¬ p c = true) → s.dropWhile p = s
  | [], _ => rfl
  | c :: cs, h => by
    have : ¬ p c = true := h c (List.mem_cons_self c cs)
    simp [List.dropWhile, this]

theorem goTrim_no_space {s : List Char} (h : ' ' ∉ s) : goTrim s = s := by
  have h1 : s.dropWhile (· = ' ') = s :=
    dropWhile_eq_self_of_head (by intro c hc; simp; intro hcc; exact h (hcc ▸ hc))
  have h2 : s.reverse.dropWhile (· = ' ') = s.reverse :=
    dropWhile_eq_self_of_head
      (by intro c hc; simp; intro hcc; exact h (hcc ▸ List.mem_reverse.mp hc))
  simp [goTrim, h1, h2]

theorem goTrim_mem_sub {s : List Char} : ∀ c ∈ goTrim s, c ∈ s := by
  intro c hc
  simp only [goTrim, List.mem_reverse] at hc
  have h1 := (List.dropWhile_sublist (l := (s.dropWhile (· = ' ')).reverse)
    (p := (· = ' '))).mem hc
  have h2 := (List.dropWhile_sublist (l := s) (p := (· = ' '))).mem
    (List.mem_reverse.mp h1)
  exact h2

/-! ### Lemmas about `keepToken` -/

theorem keepToken_eq_some_iff {t u : List Char} :
    keepToken t = some u ↔ u = goTrim t ∧ goTrim t ≠ [] ∧ parseCIDR (goTrim t) = true := by
  unfold keepToken
  rcases h0 : goTrim t with _ | ⟨c, cs⟩
  · simp [h0]
  · by_cases hp : parseCIDR (c :: cs) = true
    · simp [hp, eq_comm]
    · simp [hp]

theorem keepToken_nil : keepToken [] = none := rfl

/-! ### Membership characterization of `normalizeCIDRs` -/

theorem replSpace_ne_space (c : Char) : replSpace c ≠ ' ' := by
  unfold replSpace
  by_cases h : c = ' ' <;> simp [h]

theorem mem_rawTokens_no_space {raw : String} {t : List Char} (ht : t ∈ rawTokens raw) :
    ' ' ∉ t := by
  intro hsp
  have := mem_splitOnChar_chars_sub ht ' ' hsp
  rcases List.mem_map.mp this with ⟨c, _, hc⟩
  exact replSpace_ne_space c hc

theorem mem_rawTokens_no_comma {raw : String} {t : List Char} (ht : t ∈ rawTokens raw) :
    ',' ∉ t :=
  mem_splitOnChar_not_sep ht

theorem strMk_data (s : String) : String.mk s.data = s := rfl

theorem mem_normalizeCIDRs {raw : String} {x : String} :
    x ∈ normalizeCIDRs raw ↔ ∃ t ∈ rawTokens raw, keepToken t = some x.data := by
  unfold normalizeCIDRs
  rw [List.mem_insertionSort, List.mem_dedup, List.mem_map]
  constructor
  · rintro ⟨u, hu, hux⟩
    rcases List.mem_filterMap.mp hu with ⟨t, ht, hkt⟩
    refine ⟨t, ht, ?_⟩
    rw [← hux]
    exact hkt
  · rintro ⟨t, ht, hkt⟩
    exact ⟨x.data, List.mem_filterMap.mpr ⟨t, ht, hkt⟩, strMk_data x⟩

theorem mem_normalizeCIDRs_props {raw : String} {x : String} (hx : x ∈ normalizeCIDRs raw) :
    x.data ≠ [] ∧ parseCIDR x.data = true ∧ ' ' ∉ x.data ∧ ',' ∉ x.data := by
  rcases mem_normalizeCIDRs.mp hx with ⟨t, ht, hkt⟩
  rcases keepToken_eq_some_iff.mp hkt with ⟨hxd, hne, hp⟩
  refine ⟨hxd ▸ hne, hxd ▸ hp, ?_, ?_⟩
  · intro hsp
    exact mem_rawTokens_no_space ht (goTrim_mem_sub ' ' (hxd ▸ hsp))
  · intro hcm
    exact mem_rawTokens_no_comma ht (goTrim_mem_sub ',' (hxd ▸ hcm))

theorem normalizeCIDRs_nodup (raw : String) : (normalizeCIDRs raw).Nodup :=
  ((List.perm_insertionSort strLe _).nodup_iff).mpr (List.nodup_dedup _)

theorem normalizeCIDRs_sorted (raw : String) : List.Sorted strLe (normalizeCIDRs raw) :=
  List.sorted_insertionSort strLe _

/-! ### Idempotence machinery -/

/-- Model of `strings.Join(elems, ",")`: the elements joined by single commas. -/
def commaJoin (elems : List String) : String :=
  String.mk (joinComma (elems.map String.data))

theorem mem_joinComma {c : Char} :
    ∀ {l : List (List Char)}, c ∈ joinComma l → c = ',' ∨ ∃ p ∈ l, c ∈ p
  | [], h => by simp [joinComma] at h
  | [p], h => Or.inr ⟨p, List.mem_singleton_self p, by simpa [joinComma] using h⟩
  | p :: q :: rest, h => by
    have h' : c ∈ p ∨ c = ',' ∨ c ∈ joinComma (q :: rest) := by simpa [joinComma] using h
    rcases h' with h1 | h1 | h1
    · exact Or.inr ⟨p, List.mem_cons_self _ _, h1⟩
    · exact Or.inl h1
    · rcases mem_joinComma h1 with h3 | ⟨r, hr, hcr⟩
      · exact Or.inl h3
      · exact Or.inr ⟨r, List.mem_cons_of_mem p hr, hcr⟩

theorem map_replSpace_eq_self : ∀ {s : List Char}, ' ' ∉ s → s.map replSpace = s
  | [], _ => rfl
  | c :: cs, h => by
    have hc : c ≠ ' ' := fun hcc => h (hcc ▸ List.mem_cons_self c cs)
    have hcs : ' ' ∉ cs := fun hm => h (List.mem_cons_of_mem c hm)
    simp [replSpace, hc, map_replSpace_eq_self hcs]

theorem filterMap_id_of_mem {α : Type} {f : α → Option α} :
    ∀ l : List α, (∀ a ∈ l, f a = some a) → l.filterMap f = l
  | [], _ => rfl
  | a :: as, h => by
    rw [List.filterMap_cons, h a (List.mem_cons_self _ _),
      filterMap_id_of_mem as fun b hb => h b (List.mem_cons_of_mem a hb)]

theorem map_mk_map_data : ∀ l : List String, (l.map String.data).map String.mk = l
  | [] => rfl
  | s :: rest => by rw [List.map_cons, List.map_cons, map_mk_map_data rest]

/-- Normalizing the comma-join of a non-empty list of clean tokens (comma-free,
space-free, non-empty, valid, duplicate-free, sorted) returns the list unchanged. -/
theorem normalizeCIDRs_of_clean (pieces : List (List Char))
    (hne : pieces ≠ [])
    (hcomma : ∀ p ∈ pieces, ',' ∉ p)
    (hspace : ∀ p ∈ pieces, ' ' ∉ p)
    (hnil : ∀ p ∈ pieces, p ≠ [])
    (hvalid : ∀ p ∈ pieces, parseCIDR p = true)
    (hnodup : (pieces.map String.mk).Nodup)
    (hsorted : List.Sorted strLe (pieces.map String.mk)) :
    normalizeCIDRs (String.mk (joinComma pieces)) = pieces.map String.mk := by
  have hnospace : ' ' ∉ joinComma pieces := by
    intro hsp
    rcases mem_joinComma hsp with h | ⟨p, hp, hcp⟩
    · exact absurd h (by decide)
    · exact hspace p hp hcp
  have htok : rawTokens (String.mk (joinComma pieces)) = pieces := by
    unfold rawTokens
    show splitOnChar ',' ((joinComma pieces).map replSpace) = pieces
    rw [map_replSpace_eq_self hnospace]
    exact splitOnChar_joinComma pieces hne hcomma
  have hkeep : pieces.filterMap keepToken = pieces := by
    refine filterMap_id_of_mem pieces fun p hp => ?_
    refine keepToken_eq_some_iff.mpr ?_
    rw [goTrim_no_space (hspace p hp)]
    exact ⟨rfl, hnil p hp, hvalid p hp⟩
  unfold normalizeCIDRs
  rw [htok, hkeep, List.dedup_eq_self.mpr hnodup, hsorted.insertionSort_eq]

/-- The normalization of `GetMeshCIDRRanges` is idempotent: re-normalizing its
comma-joined output reproduces it. -/
theorem normalizeCIDRs_idem (raw : String) :
    normalizeCIDRs (commaJoin (normalizeCIDRs raw)) = normalizeCIDRs raw := by
  by_cases h0 : normalizeCIDRs raw = []
  · rw [h0]
    decide
  · have hprops := fun x (hx : x ∈ normalizeCIDRs raw) => mem_normalizeCIDRs_props hx
    have hmem : ∀ p ∈ (normalizeCIDRs raw).map String.data, ∃ x ∈ normalizeCIDRs raw,
        x.data = p := by
      intro p hp
      rcases List.mem_map.mp hp with ⟨x, hx, hxp⟩
      exact ⟨x, hx, hxp⟩
    have h := normalizeCIDRs_of_clean ((normalizeCIDRs raw).map String.data)
      (by simpa using h0)
      (fun p hp => by rcases hmem p hp with ⟨x, hx, he⟩; exact he ▸ (hprops x hx).2.2.2)
      (fun p hp => by rcases hmem p hp with ⟨x, hx, he⟩; exact he ▸ (hprops x hx).2.2.1)
      (fun p hp => by rcases hmem p hp with ⟨x, hx, he⟩; exact he ▸ (hprops x hx).1)
      (fun p hp => by rcases hmem p hp with ⟨x, hx, he⟩; exact he ▸ (hprops x hx).2.1)
      (by rw [map_mk_map_data]; exact normalizeCIDRs_nodup raw)
      (by rw [map_mk_map_data]; exact normalizeCIDRs_sorted raw)
    rw [map_mk_map_data] at h
    exact h

/-! ### The spec-side tokenizer (refinement target for the delimiter claim)

`specTokens` follows the spec's words — "treat both comma and space as item
delimiters; collapse either into a single separator before splitting; discard
empty tokens" — rather than the code (which instead replaces every space by a
comma and later skips empty tokens).  The delimiter claim compares the two. -/

/-- A delimiter character per the spec: comma or space. -/
def isDelim (c : Char) : Bool := c == ',' || c == ' '

/-- Generic single-pass splitter on a character predicate. -/
def splitChP (p : Char → Bool) : List Char → List Char × List (List Char)
  | [] => ([], [])
  | c :: cs =>
    let r := splitChP p cs
    if p c then ([], r.1 :: r.2) else (c :: r.1, r.2)

/-- Spec-side tokenization: split on either delimiter and discard empty tokens
(discarding empties is exactly what collapsing delimiter runs achieves). -/
def specTokens (raw : String) : List (List Char) :=
  ((splitChP isDelim raw.data).1 :: (splitChP isDelim raw.data).2).filter (fun t => !t.isEmpty)

theorem splitCh_replSpace : ∀ s : List Char, splitCh ',' (s.map replSpace) = splitChP isDelim s
  | [] => rfl
  | c :: cs => by
    by_cases h1 : c = ' '
    · simp [splitCh, splitChP, replSpace, isDelim, h1, splitCh_replSpace cs]
    · by_cases h2 : c = ','
      · simp [splitCh, splitChP, replSpace, isDelim, h1, h2, splitCh_replSpace cs]
      · simp [splitCh, splitChP, replSpace, isDelim, h1, h2, splitCh_replSpace cs]

theorem rawTokens_filter_eq_specTokens (raw : String) :
    (rawTokens raw).filter (fun t => !t.isEmpty) = specTokens raw := by
  unfold rawTokens specTokens splitOnChar
  rw [splitCh_replSpace]

theorem filterMap_keepToken_filter (l : List (List Char)) :
    (l.filter (fun t => !t.isEmpty)).filterMap keepToken = l.filterMap keepToken := by
  induction l with
  | nil => rfl
  | cons t ts ih =>
    by_cases h : t = []
    · simp [h, List.filter_cons, List.filterMap_cons, keepToken_nil, ih]
    · have : t.isEmpty = false := by simpa [List.isEmpty_iff] using h
      simp [List.filter_cons, this, List.filterMap_cons, ih]

/-! ### Space-surrounded tokens (trimming behaviour) -/

theorem splitCh_replicate_sep (sep : Char) :
    ∀ n, splitCh sep (List.replicate n sep) = ([], List.replicate n [])
  | 0 => rfl
  | n + 1 => by
    simp [List.replicate_succ, splitCh, splitCh_replicate_sep sep n]

theorem splitOnChar_replicate_sep_append (sep : Char) (t : List Char) :
    ∀ m, splitOnChar sep (List.replicate m sep ++ t) = List.replicate m [] ++ splitOnChar sep t
  | 0 => by simp
  | m + 1 => by
    rw [List.replicate_succ, List.cons_append, splitOnChar_append_sep,
      splitOnChar_replicate_sep_append sep t m, List.replicate_succ, List.cons_append]

theorem splitOnChar_no_sep_append_replicate {sep : Char} {s : List Char} (hs : sep ∉ s)
    (n : Nat) : splitOnChar sep (s ++ List.replicate n sep) = s :: List.replicate n [] := by
  unfold splitOnChar
  rw [splitCh_append_no_sep hs, splitCh_replicate_sep]
  simp

theorem filterMap_keepToken_replicate_nil :
    ∀ k, (List.replicate k ([] : List Char)).filterMap keepToken = []
  | 0 => rfl
  | k + 1 => by
    rw [List.replicate_succ, List.filterMap_cons, keepToken_nil,
      filterMap_keepToken_replicate_nil k]

/-- A single valid, space-free, comma-free token surrounded by any number of spaces
normalizes to exactly that token. -/
theorem normalizeCIDRs_spaces_around (s : List Char) (m n : Nat)
    (hsp : ' ' ∉ s) (hcm : ',' ∉ s) (hne : s ≠ []) (hv : parseCIDR s = true) :
    normalizeCIDRs (String.mk (List.replicate m ' ' ++ s ++ List.replicate n ' '))
      = [String.mk s] := by
  have hmap : (List.replicate m ' ' ++ s ++ List.replicate n ' ').map replSpace
      = List.replicate m ',' ++ (s ++ List.replicate n ',') := by
    rw [List.append_assoc, List.map_append, List.map_append, List.map_replicate,
      List.map_replicate, map_replSpace_eq_self hsp]
    rfl
  have htok : rawTokens (String.mk (List.replicate m ' ' ++ s ++ List.replicate n ' '))
      = List.replicate m [] ++ s :: List.replicate n [] := by
    show splitOnChar ',' ((List.replicate m ' ' ++ s ++ List.replicate n ' ').map replSpace) = _
    rw [hmap, splitOnChar_replicate_sep_append, splitOnChar_no_sep_append_replicate hcm]
  have hkeep : keepToken s = some s := by
    refine keepToken_eq_some_iff.mpr ?_
    rw [goTrim_no_space hsp]
    exact ⟨rfl, hne, hv⟩
  unfold normalizeCIDRs
  rw [htok, List.filterMap_append, filterMap_keepToken_replicate_nil, List.filterMap_cons,
    hkeep, filterMap_keepToken_replicate_nil]
  simp [List.insertionSort, List.orderedInsert]

/-- Associativity of string concatenation, needed to regroup the composed default host. -/
theorem strAppend_assoc : ∀ a b c : String, a ++ b ++ c = a ++ (b ++ c)
  | ⟨x⟩, ⟨y⟩, ⟨z⟩ => congrArg String.mk (List.append_assoc x y z)

/-! ### The claims -/

/-- Claim C1: for every raw mesh-CIDR input string, the output of
`GetMeshCIDRRanges` contains no duplicate strings and is sorted lexicographically
non-decreasing by string value (`strLe` is the lexicographic order on strings,
as used by `sort.Strings`). -/
theorem GetMeshCIDRRanges_nodup_sorted (c : Client) :
    c.GetMeshCIDRRanges.Nodup ∧ List.Sorted strLe c.GetMeshCIDRRanges :=
  ⟨normalizeCIDRs_nodup _, normalizeCIDRs_sorted _⟩

/-- Claim C2: every element of the sequence returned by `GetMeshCIDRRanges`
parses as a syntactically valid network address range — `parseCIDR` is the model
of `net.ParseCIDR`: an address of one of the two families plus a prefix length
within the bounds of that family. -/
theorem GetMeshCIDRRanges_valid (c : Client) :
    ∀ x ∈ c.GetMeshCIDRRanges, parseCIDR x.data = true :=
  fun _ hx => (mem_normalizeCIDRs_props hx).2.1

/-- Witness for C2 at a concrete input. -/
theorem GetMeshCIDRRanges_valid_witness : parseCIDR ("10.0.0.0/8" : String).data = true :=
  GetMeshCIDRRanges_valid (clientWithCIDRs "10.0.0.0/8") "10.0.0.0/8" (by decide)

/-- Claim C3: `GetMeshCIDRRanges` always returns normally; an element is in the
output exactly when it is a trimmed, non-empty, `ParseCIDR`-valid token of the
input (so invalid tokens are excluded while valid ones are kept); an input with
no valid tokens — in particular the empty input — yields `[]`, and the spec's
example input yields exactly its two valid tokens. -/
theorem GetMeshCIDRRanges_skips_invalid (c : Client) :
    (∀ x : String, x ∈ c.GetMeshCIDRRanges ↔
      ∃ t ∈ rawTokens c.getConfigMap.meshCIDRRanges,
        x.data = goTrim t ∧ x.data ≠ [] ∧ parseCIDR x.data = true)
    ∧ ((∀ t ∈ rawTokens c.getConfigMap.meshCIDRRanges, keepToken t = none) →
      c.GetMeshCIDRRanges = [])
    ∧ (clientWithCIDRs "").GetMeshCIDRRanges = []
    ∧ (clientWithCIDRs "10.0.0.0/8, not-a-cidr, 192.168.1.0/24").GetMeshCIDRRanges
      = ["10.0.0.0/8", "192.168.1.0/24"] := by
  refine ⟨fun x => ?_, fun hall => ?_, by decide, by decide⟩
  · rw [show c.GetMeshCIDRRanges = normalizeCIDRs c.getConfigMap.meshCIDRRanges from rfl,
      mem_normalizeCIDRs]
    constructor
    · rintro ⟨t, ht, hk⟩
      rcases keepToken_eq_some_iff.mp hk with ⟨h1, h2, h3⟩
      exact ⟨t, ht, h1, by rw [h1]; exact h2, by rw [h1]; exact h3⟩
    · rintro ⟨t, ht, h1, h2, h3⟩
      refine ⟨t, ht, keepToken_eq_some_iff.mpr ⟨h1, ?_, ?_⟩⟩
      · rw [← h1]; exact h2
      · rw [← h1]; exact h3
  · show normalizeCIDRs _ = []
    unfold normalizeCIDRs
    rw [List.filterMap_eq_nil_iff.mpr hall]
    rfl

/-- Witness for C3's hypotheses at a concrete input: an input consisting only of
an invalid token normalizes to the empty sequence. -/
theorem GetMeshCIDRRanges_skips_invalid_witness :
    (clientWithCIDRs "not-a-cidr").GetMeshCIDRRanges = [] :=
  (GetMeshCIDRRanges_skips_invalid (clientWithCIDRs "not-a-cidr")).2.1 (by decide)

/-- Claim C4: the code's tokenization (replace every space by a comma, split on
commas, discard empty tokens) coincides with treating both comma and space as
item delimiters collapsed into single separators (`specTokens`, written from the
spec's words); consequently `GetMeshCIDRRanges` can be computed from the
spec-side tokens, and the spec's mixed-delimiter example holds. -/
theorem GetMeshCIDRRanges_delimiters :
    (∀ c : Client, (rawTokens c.getConfigMap.meshCIDRRanges).filter (fun t => !t.isEmpty)
      = specTokens c.getConfigMap.meshCIDRRanges)
    ∧ (∀ c : Client, c.GetMeshCIDRRanges = List.insertionSort strLe
      (((specTokens c.getConfigMap.meshCIDRRanges).filterMap keepToken).map String.mk).dedup)
    ∧ (clientWithCIDRs "10.0.0.0/8, 192.168.0.0/16  10.0.0.0/8").GetMeshCIDRRanges
      = ["10.0.0.0/8", "192.168.0.0/16"] := by
  refine ⟨fun c => rawTokens_filter_eq_specTokens _, fun c => ?_, by decide⟩
  show normalizeCIDRs _ = _
  unfold normalizeCIDRs
  rw [← rawTokens_filter_eq_specTokens, filterMap_keepToken_filter]

/-- Claim C5: normalization is idempotent — joining the output of
`GetMeshCIDRRanges` with commas (`commaJoin`, the model of `strings.Join`) and
normalizing the joined string again yields the same sequence. -/
theorem GetMeshCIDRRanges_idempotent (c : Client) :
    (clientWithCIDRs (commaJoin c.GetMeshCIDRRanges)).GetMeshCIDRRanges
      = c.GetMeshCIDRRanges :=
  normalizeCIDRs_idem c.getConfigMap.meshCIDRRanges

/-- Claim C6: when the snapshot's tracing address is empty (its absent state),
`GetTracingHost` returns the composed default
`{defaultTracingHost}.{controllerNamespace}.svc.cluster.local` — with namespace
`"osm-system"` this is `{defaultTracingHost}.osm-system.svc.cluster.local` — and
when the tracing address is set non-empty, `GetTracingHost` returns it. -/
theorem GetTracingHost_default (dth : String) (c : Client) :
    (c.getConfigMap.tracingAddress = "" →
      c.GetTracingHost dth = dth ++ "." ++ c.GetOSMNamespace ++ ".svc.cluster.local")
    ∧ (c.getConfigMap.tracingAddress ≠ "" →
      c.GetTracingHost dth = c.getConfigMap.tracingAddress)
    ∧ (c.getConfigMap.tracingAddress = "" → c.GetOSMNamespace = "osm-system" →
      c.GetTracingHost dth = dth ++ ".osm-system.svc.cluster.local") := by
  refine ⟨fun h => ?_, fun h => ?_, fun h hns => ?_⟩
  · simp [Client.GetTracingHost, h]
  · simp [Client.GetTracingHost, h]
  · have h1 : c.GetTracingHost dth = dth ++ "." ++ "osm-system" ++ ".svc.cluster.local" := by
      simp [Client.GetTracingHost, h, hns]
    rw [h1, strAppend_assoc (dth ++ ".") "osm-system" ".svc.cluster.local",
      strAppend_assoc dth "." ("osm-system" ++ ".svc.cluster.local")]
    exact congrArg (dth ++ ·) (by decide)

/-- Witness for C6 at a concrete input: zero-value snapshot, namespace `"osm-system"`. -/
theorem GetTracingHost_default_witness :
    baseClient.GetTracingHost "jaeger" = "jaeger" ++ ".osm-system.svc.cluster.local" :=
  (GetTracingHost_default "jaeger" baseClient).2.2 rfl rfl

/-- Claim C7: a zero (absent) tracing port makes `GetTracingPort` return the
compiled-in default; a non-zero in-range port — such as 9412 — is returned
exactly (the `uint32` conversion reduces modulo `2^32`, the identity below it). -/
theorem GetTracingPort_default (dtp : Nat) (c : Client) :
    (c.getConfigMap.tracingPort = 0 → c.GetTracingPort dtp = dtp)
    ∧ (0 < c.getConfigMap.tracingPort → c.getConfigMap.tracingPort < 2 ^ 32 →
      c.GetTracingPort dtp = c.getConfigMap.tracingPort.toNat)
    ∧ (c.getConfigMap.tracingPort = 9412 → c.GetTracingPort dtp = 9412) := by
  refine ⟨fun h => ?_, fun h1 h2 => ?_, fun h => ?_⟩
  · simp [Client.GetTracingPort, h]
  · have hne : c.getConfigMap.tracingPort ≠ 0 := by omega
    simp only [Client.GetTracingPort, if_pos hne]
    rw [Int.emod_eq_of_lt (le_of_lt h1) h2]
  · simp [Client.GetTracingPort, h]

/-- Witness for C7 at a concrete input: stored port 9412 is returned as 9412,
regardless of the default. -/
theorem GetTracingPort_default_witness :
    Client.GetTracingPort 9411
      { osmNamespace := "osm-system", configMap := { baseConfig with tracingPort := 9412 } }
      = 9412 :=
  (GetTracingPort_default 9411
    { osmNamespace := "osm-system", configMap := { baseConfig with tracingPort := 9412 } }).2.2
    rfl

/-- Claim C8, counterexample: the snapshot's optional fields are plain strings
with no absent state distinct from the empty string, so a snapshot whose
tracing address, tracing endpoint and log level are explicitly set to `""`
(the zero-value snapshot `baseConfig`) still triggers every fallback: each
accessor returns the compiled-in default, not the stored empty value. -/
theorem optional_empty_fallback_cex :
    baseClient.getConfigMap.tracingAddress = ""
    ∧ baseClient.GetTracingHost "jaeger" = "jaeger.osm-system.svc.cluster.local"
    ∧ baseClient.GetTracingHost "jaeger" ≠ ""
    ∧ baseClient.GetTracingEndpoint "/api/v2/spans" = "/api/v2/spans"
    ∧ baseClient.GetEnvoyLogLevel "error" = "error" := by
  refine ⟨rfl, by decide, by decide, rfl, rfl⟩

/-- Claim C8, amended: the optional fields have no distinct absent state; the
accessors fall back to the compiled-in default exactly when the stored string is
empty — whether it was absent or explicitly set empty — and return the stored
value whenever it is non-empty. -/
theorem optional_empty_fallback (dth dte dll : String) (c : Client) :
    (c.getConfigMap.tracingAddress = "" →
      c.GetTracingHost dth = dth ++ "." ++ c.GetOSMNamespace ++ ".svc.cluster.local")
    ∧ (c.getConfigMap.tracingAddress ≠ "" →
      c.GetTracingHost dth = c.getConfigMap.tracingAddress)
    ∧ (c.getConfigMap.tracingEndpoint = "" → c.GetTracingEndpoint dte = dte)
    ∧ (c.getConfigMap.tracingEndpoint ≠ "" →
      c.GetTracingEndpoint dte = c.getConfigMap.tracingEndpoint)
    ∧ (c.getConfigMap.envoyLogLevel = "" → c.GetEnvoyLogLevel dll = dll)
    ∧ (c.getConfigMap.envoyLogLevel ≠ "" →
      c.GetEnvoyLogLevel dll = c.getConfigMap.envoyLogLevel) := by
  refine ⟨fun h => ?_, fun h => ?_, fun h => ?_, fun h => ?_, fun h => ?_, fun h => ?_⟩ <;>
    simp [Client.GetTracingHost, Client.GetTracingEndpoint, Client.GetEnvoyLogLevel, h]

/-- Witness for C8's amended claim at a concrete input. -/
theorem optional_empty_fallback_witness :
    baseClient.GetTracingEndpoint "/api/v2/spans" = "/api/v2/spans" :=
  (optional_empty_fallback "jaeger" "/api/v2/spans" "error" baseClient).2.2.1 rfl

/-- Claim C9, counterexample: only the space character is handled by
normalization; a tab is neither a delimiter nor trimmed (`strings.Trim(s, " ")`
trims spaces only), so the syntactically valid CIDR `10.0.0.0/8` surrounded by
a tab is *excluded* from the output, contradicting the claim for general
whitespace. -/
theorem whitespace_trim_cex :
    parseCIDR ("10.0.0.0/8" : String).data = true
    ∧ goTrim ("\t10.0.0.0/8" : String).data = ("\t10.0.0.0/8" : String).data
    ∧ (clientWithCIDRs "\t10.0.0.0/8").GetMeshCIDRRanges = [] := by
  refine ⟨by decide, by decide, by decide⟩

/-- Claim C9, amended: surrounding *space* characters are effectively removed
(the space-to-comma replacement turns them into delimiters and empty tokens are
discarded), so a valid CIDR token surrounded by any number of spaces is included
in the output of `GetMeshCIDRRanges`; whitespace other than spaces (e.g. tabs)
is not trimmed and such a token fails validation and is excluded. -/
theorem space_delimited_token_included (s : List Char) (m n : Nat)
    (hsp : ' ' ∉ s) (hcm : ',' ∉ s) (hne : s ≠ []) (hv : parseCIDR s = true) :
    (clientWithCIDRs
        (String.mk (List.replicate m ' ' ++ s ++ List.replicate n ' '))).GetMeshCIDRRanges
      = [String.mk s] :=
  normalizeCIDRs_spaces_around s m n hsp hcm hne hv

/-- Witness for C9's amended claim at a concrete input: `"␣␣10.0.0.0/8␣"`. -/
theorem space_delimited_token_included_witness :
    (clientWithCIDRs
        (String.mk (List.replicate 2 ' ' ++ ("10.0.0.0/8" : String).data
          ++ List.replicate 1 ' '))).GetMeshCIDRRanges
      = [String.mk ("10.0.0.0/8" : String).data] :=
  space_delimited_token_included ("10.0.0.0/8" : String).data 2 1
    (by decide) (by decide) (by decide) (by decide)

/-- Claim C10: `GetMeshCIDRRanges` validates but never rewrites tokens — every
output element is the trim of some input token, verbatim; in particular
`10.0.0.1/8`, a range with host bits set, passes `ParseCIDR` validation and is
returned exactly as written rather than canonicalized to `10.0.0.0/8`. -/
theorem GetMeshCIDRRanges_verbatim (c : Client) :
    (∀ x ∈ c.GetMeshCIDRRanges,
      ∃ t ∈ rawTokens c.getConfigMap.meshCIDRRanges, x.data = goTrim t)
    ∧ parseCIDR ("10.0.0.1/8" : String).data = true
    ∧ (clientWithCIDRs "10.0.0.1/8").GetMeshCIDRRanges = ["10.0.0.1/8"] := by
  refine ⟨fun x hx => ?_, by decide, by decide⟩
  rcases mem_normalizeCIDRs.mp hx with ⟨t, ht, hk⟩
  exact ⟨t, ht, (keepToken_eq_some_iff.mp hk).1⟩

/-- Witness for C10 at a concrete input. -/
theorem GetMeshCIDRRanges_verbatim_witness :
    ∃ t ∈ rawTokens "10.0.0.1/8", ("10.0.0.1/8" : String).data = goTrim t :=
  (GetMeshCIDRRanges_verbatim (clientWithCIDRs "10.0.0.1/8")).1 "10.0.0.1/8" (by decide)

end OSM
